import Mathlib

/-!
Verification of the tag-bot tag-resolution engine: a shallow embedding of the
version model, comment-command parser, last-tag resolver, next-tag generator,
conflict resolver, retry executor and validation guards, together with proofs
of the behavioural properties stated in the specification.

JavaScript strings are modelled through their character lists so that every
string operation of the source (split, trim, startsWith, toLowerCase, regex
tests) is an executable structural recursion.  JavaScript numbers are modelled
as Int (version arithmetic, parseInt) or as Rat (retry delays, where the code
multiplies by 0.25).
-/

namespace TagBot

/-- Whitespace as JavaScript trim and parseInt treat it (the characters that
occur in the inputs of this program). -/
def isJsSpace (c : Char) : Bool :=
  c = ' ' || c = '\t' || c = '\n' || c = '\r'

/-- JavaScript String.prototype.trim over the character list. -/
def jsTrim (s : String) : String :=
  String.mk (((s.data.dropWhile isJsSpace).reverse.dropWhile isJsSpace).reverse)

/-- JavaScript String.prototype.startsWith. -/
def jsStartsWith (s pre : String) : Bool :=
  pre.data.isPrefixOf s.data

/-- JavaScript String.prototype.substring(n) (drop the first n characters;
all strings involved are ASCII so code-unit and character indices agree). -/
def jsSubstringFrom (s : String) (n : Nat) : String :=
  String.mk (s.data.drop n)

/-- JavaScript String.prototype.toLowerCase (ASCII inputs). -/
def toLowerStr (s : String) : String :=
  String.mk (s.data.map Char.toLower)

/-- Splitting a character list at a separator, as JavaScript
String.prototype.split: the empty string yields one empty group. -/
def splitCh (sep : Char) : List Char → List (List Char)
  | [] => [[]]
  | c :: cs =>
    if c = sep then [] :: splitCh sep cs
    else
      match splitCh sep cs with
      | [] => [[c]]
      | g :: gs => (c :: g) :: gs

/-- JavaScript s.split(sep) for a one-character separator. -/
def jsSplit (s : String) (sep : Char) : List String :=
  (splitCh sep s.data).map String.mk

/-- The numeric value of a decimal digit list. -/
def digitsToNat (ds : List Char) : Nat :=
  ds.foldl (fun a c => a * 10 + (c.toNat - 48)) 0

/-- The integer denoted by the longest leading run of decimal digits, none
when there is no leading digit (parseInt returning NaN). -/
def leadingInt (cs : List Char) : Option Int :=
  let ds := cs.takeWhile Char.isDigit
  if ds.isEmpty then none else some ((digitsToNat ds : Nat) : Int)

/-- JavaScript parseInt on decimal input: leading whitespace is skipped, an
optional sign is read, then the longest decimal-digit run; no digit gives
NaN, modelled as none.  The hexadecimal 0x form of parseInt never arises in
the version strings this program feeds it and is not modelled. -/
def jsParseInt (s : String) : Option Int :=
  match s.data.dropWhile isJsSpace with
  | [] => none
  | c :: rest =>
    if c = '-' then (leadingInt rest).map (fun n => -n)
    else if c = '+' then leadingInt rest
    else leadingInt (c :: rest)

/-- Decidable equality of Except results, so concrete runs of the embedded
functions can be checked by decide. -/
instance {ε α : Type} [DecidableEq ε] [DecidableEq α] : DecidableEq (Except ε α)
  | Except.error a, Except.error b =>
    if h : a = b then Decidable.isTrue (by rw [h])
    else Decidable.isFalse (by intro hc; cases hc; exact h rfl)
  | Except.error _, Except.ok _ => Decidable.isFalse (by intro hc; cases hc)
  | Except.ok _, Except.error _ => Decidable.isFalse (by intro hc; cases hc)
  | Except.ok a, Except.ok b =>
    if h : a = b then Decidable.isTrue (by rw [h])
    else Decidable.isFalse (by intro hc; cases hc; exact h rfl)

/-- An error thrown by a validation guard (class ValidationError). -/
structure ValidationError where
  message : String
deriving DecidableEq, Repr

/-- The semantic-version triple (class Version); fields are JavaScript
numbers, so Int: the parsing path of generateNextTag can in fact produce
negative components. -/
structure Version where
  major : Int
  minor : Int
  patch : Int
deriving DecidableEq, Repr

/-- Version.prototype.toString: "v" + major + "." + minor + "." + patch. -/
def Version.render (v : Version) : String :=
  "v" ++ toString v.major ++ "." ++ toString v.minor ++ "." ++ toString v.patch

/-- The closed increment kind (enum PartToIncrement). -/
inductive PartToIncrement
  | Major
  | Minor
  | Patch
deriving DecidableEq, Repr

/-- The switch of generateNextTag: mutating newTag in place amounts to
building this fresh triple (Major zeroes minor and patch, Minor zeroes
patch). -/
def applyIncrement (part : PartToIncrement) (v : Version) : Version :=
  match part with
  | .Major => ⟨v.major + 1, 0, 0⟩
  | .Minor => ⟨v.major, v.minor + 1, 0⟩
  | .Patch => ⟨v.major, v.minor, v.patch + 1⟩

/-- The split-and-parseInt stage of generateNextTag: the segments are parsed
in order and the first segment whose parseInt is NaN throws. -/
def parseParts : List String → Except ValidationError (List Int)
  | [] => Except.ok []
  | item :: rest =>
    match jsParseInt item with
    | none => Except.error ⟨"Invalid version part: " ++ item ++ " is not a number"⟩
    | some n =>
      match parseParts rest with
      | Except.error e => Except.error e
      | Except.ok ns => Except.ok (n :: ns)

/-- generateNextTag (src/utils.ts): reject an empty base string, split on
dots and parseInt each segment, require exactly three parts, then apply the
cascading increment. -/
def generateNextTag (lastTag : String) (part : PartToIncrement) :
    Except ValidationError Version :=
  if lastTag = "" then
    Except.error ⟨"Last tag must be a non-empty string"⟩
  else
    match parseParts (jsSplit lastTag '.') with
    | Except.error e => Except.error e
    | Except.ok parts =>
      match parts with
      | [a, b, c] => Except.ok (applyIncrement part ⟨a, b, c⟩)
      | _ => Except.error ⟨"Version must have exactly 3 parts"⟩

/-- One segment of the pattern backslash-d+ : nonempty and all decimal
digits. -/
def digitSeg (s : String) : Bool :=
  !s.data.isEmpty && s.data.all Char.isDigit

/-- The regex test for the full version pattern (three dot-separated digit
runs, anchored at both ends). -/
def versionPatternTest (s : String) : Bool :=
  match jsSplit s '.' with
  | [a, b, c] => digitSeg a && digitSeg b && digitSeg c
  | _ => false

/-- The split-and-parseInt stage of createManualVersion: as parseParts, but
a negative part also throws. -/
def parseNonNegParts : List String → Except ValidationError (List Int)
  | [] => Except.ok []
  | part :: rest =>
    match jsParseInt part with
    | none => Except.error ⟨"Invalid version part: " ++ part ++ " is not a non-negative integer"⟩
    | some n =>
      if n < 0 then
        Except.error ⟨"Invalid version part: " ++ part ++ " is not a non-negative integer"⟩
      else
        match parseNonNegParts rest with
        | Except.error e => Except.error e
        | Except.ok ns => Except.ok (n :: ns)

/-- createManualVersion (src/utils.ts): reject empty input, test the version
pattern, then split, parseInt each part rejecting NaN and negatives, require
three parts, and build the Version. -/
def createManualVersion (manualVersion : String) : Except ValidationError Version :=
  if manualVersion = "" then
    Except.error ⟨"Manual version must be a non-empty string"⟩
  else if !versionPatternTest manualVersion then
    Except.error ⟨"Invalid version format: must be in format x.y.z"⟩
  else
    match parseNonNegParts (jsSplit manualVersion '.') with
    | Except.error e => Except.error e
    | Except.ok [a, b, c] => Except.ok ⟨a, b, c⟩
    | Except.ok _ => Except.error ⟨"Version must have exactly 3 parts"⟩

/-- Stripping an optional leading "v" (s.startsWith("v") ? s.substring(1) : s). -/
def stripLeadingV (s : String) : String :=
  match s.data with
  | 'v' :: rest => String.mk rest
  | _ => s

/-- validateVersionString (src/validation.ts): reject the empty string, strip
an optional leading v, test the version pattern, then walk the parts
rejecting NaN or negative parseInt results (unreachable after the pattern
test, kept as in the source). -/
def validateVersionString (version : String) : Except ValidationError Unit :=
  if version = "" then
    Except.error ⟨"Invalid version: must be a non-empty string"⟩
  else
    let cleanVersion := stripLeadingV version
    if !versionPatternTest cleanVersion then
      Except.error ⟨"Invalid version format: must be in format x.y.z"⟩
    else
      match (jsSplit cleanVersion '.').find? (fun p =>
        match jsParseInt p with
        | none => true
        | some n => n < 0) with
      | some p => Except.error ⟨"Invalid version part: " ++ p⟩
      | none => Except.ok ()

/-- A validated remote tag (class Tag): the stored name and the version
string, the name with one leading v stripped. -/
structure Tag where
  name : String
  version : String
deriving DecidableEq, Repr

/-- The Tag constructor (src/tag.ts): reject an empty name, derive the
version string by stripping a leading v, and validate it. -/
def Tag.create (tagName : String) : Except ValidationError Tag :=
  if tagName = "" then
    Except.error ⟨"Tag name must be a non-empty string"⟩
  else
    let version := stripLeadingV tagName
    match validateVersionString version with
    | Except.error e => Except.error ⟨"Invalid tag format: " ++ e.message⟩
    | Except.ok _ => Except.ok ⟨tagName, version⟩

/-- The numeric triple a version string denotes: strip a leading v, split on
dots, parseInt each segment (0 for a missing or unparsable one). -/
def versionTriple (s : String) : Int × Int × Int :=
  match (jsSplit (stripLeadingV s) '.').map (fun p => (jsParseInt p).getD 0) with
  | a :: b :: c :: _ => (a, b, c)
  | [a, b] => (a, b, 0)
  | [a] => (a, 0, 0)
  | [] => (0, 0, 0)

/-- Lexicographic comparison of two integer triples: -1, 0 or 1. -/
def lexCompare (x y : Int × Int × Int) : Int :=
  if x.1 < y.1 then -1
  else if y.1 < x.1 then 1
  else if x.2.1 < y.2.1 then -1
  else if y.2.1 < x.2.1 then 1
  else if x.2.2 < y.2.2 then -1
  else if y.2.2 < x.2.2 then 1
  else 0

/-- Modelled from the spec: the compare-versions library (an external npm
dependency whose source is not in this repository) as the specification
describes the ordering it provides on x.y.z version strings — lexicographic
by the numeric (major, minor, patch) triple, tolerating a leading v. -/
def compareVersions (a b : String) : Int :=
  lexCompare (versionTriple a) (versionTriple b)

/-- Lexicographic order on integer triples, the §3 "newer" ordering. -/
def lexLe (x y : Int × Int × Int) : Prop :=
  x.1 < y.1 ∨ (x.1 = y.1 ∧ (x.2.1 < y.2.1 ∨ (x.2.1 = y.2.1 ∧ x.2.2 ≤ y.2.2)))

/-- One element of the raw GitHub tag-list response as determineLastTag
consumes it: the name may be absent. -/
structure TagRecord where
  name : Option String
deriving DecidableEq, Repr

/-- The forEach body of determineLastTag: a missing (or empty, hence falsy)
name throws, then the Tag constructor is applied, wrapping its error. -/
def buildTag (element : TagRecord) : Except ValidationError Tag :=
  match element.name with
  | none => Except.error ⟨"Tag is missing name property"⟩
  | some n =>
    if n = "" then Except.error ⟨"Tag is missing name property"⟩
    else
      match Tag.create n with
      | Except.error e => Except.error ⟨"Invalid tag: " ++ e.message⟩
      | Except.ok t => Except.ok t

/-- The forEach loop of determineLastTag collecting the constructed tags in
order; the first offending element aborts (fail-fast). -/
def buildTags : List TagRecord → Except ValidationError (List Tag)
  | [] => Except.ok []
  | element :: rest =>
    match buildTag element with
    | Except.error e => Except.error e
    | Except.ok t =>
      match buildTags rest with
      | Except.error e => Except.error e
      | Except.ok ts => Except.ok (t :: ts)

/-- The sort comparator of determineLastTag as a Boolean order:
compareVersions(a.version, b.version) ≤ 0. -/
def tagLe (a b : Tag) : Bool :=
  compareVersions a.version b.version ≤ 0

/-- The comparator as a decidable relation for the sort. -/
abbrev tagOrder : Tag → Tag → Prop :=
  fun a b => tagLe a b = true

/-- determineLastTag (src/utils.ts): empty list fails, every element must
yield a Tag, the tags are sorted ascending by version and the last one is
returned.  JavaScript Array.prototype.sort is a stable comparison sort and
the comparator is a total preorder, so any stable sort models it; the
structural insertionSort is used. -/
def determineLastTag (tags : List TagRecord) : Except ValidationError Tag :=
  if tags.isEmpty then
    Except.error ⟨"No tags found in repository"⟩
  else
    match buildTags tags with
    | Except.error e => Except.error e
    | Except.ok built =>
      if built.isEmpty then
        Except.error ⟨"No valid tags found after validation"⟩
      else
        match (built.insertionSort tagOrder).getLast? with
        | some t => Except.ok t
        | none => Except.error ⟨"No valid tags found after validation"⟩

/-- One element of the raw tag list as the conflict resolver consumes it
(name plus the commit sha used in messages and the idempotency check). -/
structure RemoteTag where
  name : String
  sha : Option String
deriving DecidableEq, Repr

/-- The conflict classification of DuplicateTagInfo. -/
inductive ConflictType
  | exact_match
  | version_conflict
  | none
deriving DecidableEq, Repr

/-- DuplicateTagInfo: the result of checkDuplicateTag.  The source field
"exists" is a reserved word here, hence tagExists. -/
structure DuplicateTagInfo where
  tagExists : Bool
  tagName : String
  existingTag : Option RemoteTag
  conflictType : ConflictType
deriving DecidableEq, Repr

/-- checkDuplicateTag (src/utils.ts): an existing tag with exactly the
candidate name is an exact_match; otherwise an existing tag equal to the
candidate after stripping a leading v from both is a version_conflict;
otherwise no conflict.  (The suggestedResolution message strings are
presentation only and not modelled.) -/
def checkDuplicateTag (tags : List RemoteTag) (tagName : String) : DuplicateTagInfo :=
  match tags.find? (fun tag => tag.name = tagName) with
  | some exactMatch => ⟨true, tagName, some exactMatch, ConflictType.exact_match⟩
  | none =>
    match tags.find? (fun tag => stripLeadingV tag.name = stripLeadingV tagName) with
    | some versionConflict => ⟨true, tagName, some versionConflict, ConflictType.version_conflict⟩
    | none => ⟨false, tagName, Option.none, ConflictType.none⟩

/-- The switch of findNextAvailableVersion generating the next candidate
from the current version. -/
def findStep (incrementType : PartToIncrement) (v : Version) : Version :=
  match incrementType with
  | .Major => ⟨v.major + 1, 0, 0⟩
  | .Minor => ⟨v.major, v.minor + 1, 0⟩
  | .Patch => ⟨v.major, v.minor, v.patch + 1⟩

/-- The candidate reached after k applications of findStep to the base. -/
def stepIter (incrementType : PartToIncrement) (base : Version) : Nat → Version
  | 0 => base
  | k + 1 => findStep incrementType (stepIter incrementType base k)

/-- The for loop of findNextAvailableVersion: on each attempt generate the
next candidate, return it if checkDuplicateTag reports no conflict for its
rendered name, otherwise continue from it; exhausting the attempts throws. -/
def findLoop (incrementType : PartToIncrement) (existingTags : List RemoteTag) :
    Version → Nat → Except ValidationError Version
  | _, 0 =>
    Except.error ⟨"Unable to find a non-conflicting version after the given attempts"⟩
  | currentVersion, n + 1 =>
    let nextVersion := findStep incrementType currentVersion
    if !(checkDuplicateTag existingTags nextVersion.render).tagExists then
      Except.ok nextVersion
    else
      findLoop incrementType existingTags nextVersion n

/-- findNextAvailableVersion (src/utils.ts); the call site in run() leaves
maxAttempts at its default 10. -/
def findNextAvailableVersion (baseVersion : Version) (incrementType : PartToIncrement)
    (existingTags : List RemoteTag) (maxAttempts : Nat) : Except ValidationError Version :=
  findLoop incrementType existingTags baseVersion maxAttempts

/-- The characters inside the character class of the invalidChars regex of
validateTagName: the class closes at the first unescaped right bracket, so
it holds exactly tilde, caret, colon, question mark, asterisk, left bracket
and backslash. -/
def gitIllegalClassChar (c : Char) : Bool :=
  c = '~' || c = '^' || c = ':' || c = '?' || c = '*' || c = '[' || c = '\\'

/-- What remains of the invalidChars regex after its character class closes:
the literal text at, left brace, right brace, right bracket. -/
def buggySuffix : List Char :=
  ['@', Char.ofNat 123, Char.ofNat 125, ']']

/-- The test of the regex as JavaScript actually reads it: a class character
immediately followed by the literal four-character tail, somewhere in the
name. -/
def invalidCharsTest : List Char → Bool
  | [] => false
  | c :: rest => (gitIllegalClassChar c && buggySuffix.isPrefixOf rest) || invalidCharsTest rest

/-- A control character (x00-x1f or x7f), as the second regex of
validateTagName tests. -/
def hasControlChar (s : String) : Bool :=
  s.data.any (fun c => c.toNat ≤ 31 || c.toNat = 127)

/-- validateTagName (src/validation.ts, the version with the control-char
check): empty and whitespace-only names and names with control characters
are rejected; the invalid-character rejection applies the regex as written,
whose class closes early (see invalidCharsTest). -/
def validateTagName (tagName : String) : Except ValidationError Unit :=
  if tagName = "" then
    Except.error ⟨"Tag name must be a non-empty string"⟩
  else if jsTrim tagName = "" then
    Except.error ⟨"Tag name cannot be empty or whitespace only"⟩
  else if invalidCharsTest tagName.data then
    Except.error ⟨"Tag name contains invalid characters"⟩
  else if hasControlChar tagName then
    Except.error ⟨"Tag name contains control characters which are not allowed"⟩
  else
    Except.ok ()

/-- RetryConfig (src/validation.ts): delays in milliseconds; Rat because the
jitter computation multiplies by 0.25. -/
structure RetryConfig where
  maxAttempts : Nat
  baseDelay : Rat
  maxDelay : Rat
  backoffMultiplier : Rat
  jitter : Bool
deriving DecidableEq, Repr

/-- The default retry configuration for GitHub API calls. -/
def DEFAULT_RETRY_CONFIG : RetryConfig :=
  ⟨3, 1000, 30000, 2, true⟩

/-- calculateDelay (src/validation.ts): exponential backoff capped at
maxDelay; with jitter, the random draw rand in the unit interval (the
Math.random() result) perturbs the delay by (rand - 0.5) times a quarter of
it, floored at 100ms. -/
def calculateDelay (attempt : Nat) (config : RetryConfig) (rand : Rat) : Rat :=
  let exponentialDelay := config.baseDelay * config.backoffMultiplier ^ (attempt - 1)
  let delay := min exponentialDelay config.maxDelay
  if config.jitter then
    let jitterRange := delay * (1 / 4)
    let jitterAmount := (rand - 1 / 2) * jitterRange
    max 100 (delay + jitterAmount)
  else
    delay

/-- The rate-limit response headers an error or response may carry, each a
raw header string when present. -/
structure RateHeaders where
  remaining : Option String
  reset : Option String
  limit : Option String
  retryAfter : Option String
deriving DecidableEq, Repr

/-- A JavaScript Error as the retry executor inspects it: message, an
optional code string, an optional HTTP status, optional response headers. -/
structure JsError where
  message : String
  code : Option String
  status : Option Nat
  headers : Option RateHeaders
deriving DecidableEq, Repr

/-- JavaScript or-with-default on a header value: an absent or empty (falsy)
string falls back to the default. -/
def jsOrDefault (v : Option String) (d : String) : String :=
  match v with
  | some s => if s = "" then d else s
  | none => d

/-- RateLimitInfo parsed out of the headers. -/
structure RateLimitInfo where
  remaining : Int
  reset : Int
  limit : Int
deriving DecidableEq, Repr

/-- extractRateLimitInfo (src/validation.ts): parseInt the three headers
with default "0"; the info is returned only when remaining is non-negative
and reset and limit are positive (a NaN fails those comparisons, modelled by
the none branch). -/
def extractRateLimitInfo (headers : RateHeaders) : Option RateLimitInfo :=
  match jsParseInt (jsOrDefault headers.remaining "0"),
        jsParseInt (jsOrDefault headers.reset "0"),
        jsParseInt (jsOrDefault headers.limit "0") with
  | some remaining, some reset, some limit =>
    if remaining ≥ 0 && reset > 0 && limit > 0 then some ⟨remaining, reset, limit⟩
    else none
  | _, _, _ => none

/-- The transient message patterns of isRetryableError (each tested
case-insensitively against the message). -/
def retryablePatterns : List String :=
  ["rate limit exceeded", "temporary", "timeout", "network error",
   "connection reset", "service unavailable"]

/-- Whether the pattern occurs inside the character list. -/
def listInfix (p : List Char) : List Char → Bool
  | [] => p.isEmpty
  | c :: rest => p.isPrefixOf (c :: rest) || listInfix p rest

/-- isRetryableError (src/validation.ts): transient network codes, the six
retryable HTTP statuses, or a transient message pattern.  The JavaScript
statusCode falls back from error.status through error.code to 0; only the
numeric error.status can ever equal one of the retryable status numbers
(and status 0, being falsy, falls through to the non-matching fallback),
so the membership test reads error.status with default 0. -/
def isRetryableError (e : JsError) : Bool :=
  (e.code = some "ECONNRESET" || e.code = some "ENOTFOUND" || e.code = some "ETIMEDOUT")
  || [408, 429, 500, 502, 503, 504].contains (e.status.getD 0)
  || retryablePatterns.any (fun p => listInfix p.data (toLowerStr e.message).data)

/-- shouldWaitForRateLimit (src/validation.ts): with rate-limit info and no
remaining requests, wait until reset; on a 429 with a truthy retry-after
header, wait that many seconds (a NaN parse yields a NaN wait, falsy at the
call site, modelled none), else wait until reset; otherwise no wait.  now is
the Date.now() epoch in seconds. -/
def shouldWaitForRateLimit (info : Option RateLimitInfo) (e : JsError) (now : Int) :
    Option Int :=
  match info with
  | none => none
  | some i =>
    if i.remaining ≤ 0 then
      some (max 0 (i.reset - now) * 1000)
    else if e.status = some 429 then
      match e.headers with
      | some h =>
        match h.retryAfter with
        | some ra =>
          if ra ≠ "" then
            match jsParseInt ra with
            | some n => some (n * 1000)
            | none => none
          else some (max 0 (i.reset - now) * 1000)
        | none => some (max 0 (i.reset - now) * 1000)
      | none => some (max 0 (i.reset - now) * 1000)
    else
      none

/-- RetryResult (src/validation.ts).  The wall-clock totalTime and the
duplicate lastError field carry no logic and are not modelled. -/
structure RetryResult (α : Type) where
  success : Bool
  data : Option α
  error : Option JsError
  attempts : Nat
deriving DecidableEq, Repr

/-- The operation under retry, modelled by the outcome of each attempt
(attempts are numbered from 1). -/
def Operation (α : Type) : Type := Nat → Except JsError α

/-- The attempt loop of withRetry, with the remaining loop iterations as
fuel: success returns at the current attempt; a failure on the last attempt
or a non-retryable failure returns the failure; otherwise the next attempt
runs after the backoff delay (which does not affect the result).  Fuel 0 is
the unreachable fall-through return after the loop. -/
def withRetryGo {α : Type} (op : Operation α) (maxAttempts : Nat) :
    Nat → Nat → RetryResult α
  | 0, _ => ⟨false, none, some ⟨"Retry logic failed unexpectedly", none, none, none⟩, maxAttempts⟩
  | fuel + 1, attempt =>
    match op attempt with
    | Except.ok v => ⟨true, some v, none, attempt⟩
    | Except.error e =>
      if attempt = maxAttempts || !isRetryableError e then
        ⟨false, none, some e, attempt⟩
      else
        withRetryGo op maxAttempts fuel (attempt + 1)

/-- withRetry (src/validation.ts): run the loop from attempt 1. -/
def withRetry {α : Type} (op : Operation α) (config : RetryConfig) : RetryResult α :=
  withRetryGo op config.maxAttempts config.maxAttempts 1

/-- The attempt loop of withGitHubRetry: as withRetry, except that a failure
whose headers yield a positive rate-limit wait continues to the next attempt
(after the header-driven wait) without the retryability test. -/
def withGitHubRetryGo {α : Type} (op : Operation α) (maxAttempts : Nat) (now : Int) :
    Nat → Nat → RetryResult α
  | 0, _ => ⟨false, none, some ⟨"GitHub retry logic failed unexpectedly", none, none, none⟩, maxAttempts⟩
  | fuel + 1, attempt =>
    match op attempt with
    | Except.ok v => ⟨true, some v, none, attempt⟩
    | Except.error e =>
      let rateLimitWait : Option Int :=
        match e.headers with
        | some h => shouldWaitForRateLimit (extractRateLimitInfo h) e now
        | none => none
      if (match rateLimitWait with | some w => decide (w > 0) | none => false) = true then
        withGitHubRetryGo op maxAttempts now fuel (attempt + 1)
      else if attempt = maxAttempts || !isRetryableError e then
        ⟨false, none, some e, attempt⟩
      else
        withGitHubRetryGo op maxAttempts now fuel (attempt + 1)

/-- withGitHubRetry (src/validation.ts): run the loop from attempt 1. -/
def withGitHubRetry {α : Type} (op : Operation α) (config : RetryConfig) (now : Int) :
    RetryResult α :=
  withGitHubRetryGo op config.maxAttempts now config.maxAttempts 1

/-- Modelled from the spec: src/config.ts is absent from the repository
files; the spec names the configured comment-command identifier with default
"/tag-bot". -/
def commentIdentifier : String := "/tag-bot"

/-- The command kind of a parsed comment (enum TagBotCommand). -/
inductive TagBotCommand
  | Skip
  | ManualVersion
  | Increment
deriving DecidableEq, Repr

/-- What the runtime lookup PartToIncrement[key] can hand back: a proper
enum member, or — through the reverse mapping a TypeScript numeric enum also
carries at runtime (keys "0", "1", "2") — the member name as a string. -/
abbrev IncValue : Type := PartToIncrement ⊕ String

/-- The runtime enum lookup: the three member names map to members; the
numeric keys of the reverse mapping map to name strings; everything else is
undefined. -/
def enumLookup (s : String) : Option IncValue :=
  if s = "Major" then some (Sum.inl PartToIncrement.Major)
  else if s = "Minor" then some (Sum.inl PartToIncrement.Minor)
  else if s = "Patch" then some (Sum.inl PartToIncrement.Patch)
  else if s = "0" then some (Sum.inr "Major")
  else if s = "1" then some (Sum.inr "Minor")
  else if s = "2" then some (Sum.inr "Patch")
  else none

/-- TagBotCommandResult (src/utils.ts). -/
structure TagBotCommandResult where
  command : TagBotCommand
  incrementType : Option IncValue
  manualVersion : Option String
  shouldSkip : Bool
deriving DecidableEq, Repr

/-- charAt(0).toUpperCase() + slice(1).toLowerCase() of the increment
lookup key. -/
def capitalizeJs (s : String) : String :=
  match s.data with
  | [] => ""
  | c :: rest => String.mk (c.toUpper :: rest.map Char.toLower)

/-- parseCommentBody (src/utils.ts, current version): validate the body,
require the body to start with the identifier, trim the remainder; then skip, a manual
version with or without leading v, or an increment keyword; anything else
throws the descriptive error. -/
def parseCommentBody (body : String) : Except ValidationError TagBotCommandResult :=
  if body = "" then
    Except.error ⟨"Invalid comment body: Comment body must be a non-empty string"⟩
  else if jsTrim body = "" then
    Except.error ⟨"Invalid comment body: Comment body cannot be empty or whitespace only"⟩
  else if !jsStartsWith body commentIdentifier then
    Except.error ⟨"Comment must start with the identifier"⟩
  else
    let commandPart := jsTrim (jsSubstringFrom body commentIdentifier.data.length)
    if commandPart = "" then
      Except.error ⟨"No command specified after the identifier"⟩
    else if toLowerStr commandPart = "skip" then
      Except.ok ⟨TagBotCommand.Skip, none, none, true⟩
    else if jsStartsWith commandPart "v" && versionPatternTest (jsSubstringFrom commandPart 1) then
      Except.ok ⟨TagBotCommand.ManualVersion, none, some (jsSubstringFrom commandPart 1), false⟩
    else if versionPatternTest commandPart then
      Except.ok ⟨TagBotCommand.ManualVersion, none, some commandPart, false⟩
    else
      match enumLookup (capitalizeJs commandPart) with
      | some p => Except.ok ⟨TagBotCommand.Increment, some p, none, false⟩
      | none => Except.error ⟨"Invalid command: valid commands are skip, major, minor, patch, or a version"⟩

/-- A fetched pull-request comment (the body may be absent). -/
structure Comment where
  body : Option String
deriving DecidableEq, Repr

/-- The mutable directive state of run() while scanning comments:
partToIncrement starts at the Minor default, shouldSkip at false,
manualVersion unset. -/
structure ScanState where
  partToIncrement : IncValue
  shouldSkip : Bool
  manualVersion : Option String
deriving DecidableEq, Repr

/-- The initial directive state of run(). -/
def initialScanState : ScanState :=
  ⟨Sum.inl PartToIncrement.Minor, false, none⟩

/-- What one fetched comment does to the directive state. -/
inductive CommentEffect
  | noEffect
  | skip
  | manual (v : String)
  | increment (p : IncValue)
deriving DecidableEq, Repr

/-- The body of the comment loop of run(): a comment with a truthy body
starting with the identifier is parsed (a parse failure is caught and the
comment skipped); a successful parse sets the skip flag, or the manual
version (when truthy), or the increment type, per the if-chain of the
source. -/
def commentEffect (c : Comment) : CommentEffect :=
  match c.body with
  | none => CommentEffect.noEffect
  | some b =>
    if b ≠ "" ∧ jsStartsWith b commentIdentifier then
      match parseCommentBody b with
      | Except.error _ => CommentEffect.noEffect
      | Except.ok res =>
        if res.shouldSkip then CommentEffect.skip
        else if res.command = TagBotCommand.ManualVersion ∧ res.manualVersion.getD "" ≠ "" then
          CommentEffect.manual (res.manualVersion.getD "")
        else if res.command = TagBotCommand.Increment ∧ res.incrementType.isSome then
          match res.incrementType with
          | some p => CommentEffect.increment p
          | none => CommentEffect.noEffect
        else CommentEffect.noEffect
    else CommentEffect.noEffect

/-- Applying one comment to the directive state. -/
def processComment (st : ScanState) (c : Comment) : ScanState :=
  match commentEffect c with
  | CommentEffect.noEffect => st
  | CommentEffect.skip => { st with shouldSkip := true }
  | CommentEffect.manual v => { st with manualVersion := some v }
  | CommentEffect.increment p => { st with partToIncrement := p }

/-- The whole comment scan of run(), in fetched order. -/
def scanComments (comments : List Comment) : ScanState :=
  comments.foldl processComment initialScanState

/-- The directive a run acts on after scanning. -/
inductive Directive
  | skip
  | manual (v : String)
  | increment (p : IncValue)
deriving DecidableEq, Repr

/-- What run() does with the final state: the skip check first, then the
truthiness test of manualVersion choosing manual generation, else the
increment path. -/
def appliedDirective (st : ScanState) : Directive :=
  if st.shouldSkip then Directive.skip
  else
    match st.manualVersion with
    | some v => if v ≠ "" then Directive.manual v else Directive.increment st.partToIncrement
    | none => Directive.increment st.partToIncrement

/-- An operation that fails identically on every attempt. -/
def failOp (e : JsError) : Operation Unit :=
  fun _ => Except.error e

/-- A generic validation failure: HTTP 400, no transient code, no transient
message, no rate-limit headers. -/
def nonRetryableErr : JsError :=
  ⟨"Validation Failed", none, some 400, none⟩

/-- A transient failure: HTTP 503 Service Unavailable, no headers. -/
def retryableErr : JsError :=
  ⟨"Service Unavailable", none, some 503, none⟩

/-- The manual version a comment contributes, if its effect is a manual
directive. -/
def effectManual (c : Comment) : Option String :=
  match commentEffect c with
  | CommentEffect.manual v => some v
  | _ => none

/-- The increment value a comment contributes, if its effect is an increment
directive. -/
def effectInc (c : Comment) : Option IncValue :=
  match commentEffect c with
  | CommentEffect.increment p => some p
  | _ => none

/-! Shared lemmas about the string primitives. -/

theorem takeWhile_all {α : Type} (p : α → Bool) :
    ∀ l : List α, (∀ c ∈ l, p c = true) → l.takeWhile p = l := by
  intro l
  induction l with
  | nil => intro _; rfl
  | cons c cs ih =>
    intro h
    have hc : p c = true := h c (List.mem_cons_self c cs)
    simp only [List.takeWhile_cons, hc, if_true]
    rw [ih (fun x hx => h x (List.mem_cons_of_mem c hx))]

theorem isDigit_not_space {c : Char} (h : c.isDigit = true) : isJsSpace c = false := by
  unfold isJsSpace
  by_cases h1 : c = ' '
  · subst h1; exact absurd h (by decide)
  by_cases h2 : c = '\t'
  · subst h2; exact absurd h (by decide)
  by_cases h3 : c = '\n'
  · subst h3; exact absurd h (by decide)
  by_cases h4 : c = '\r'
  · subst h4; exact absurd h (by decide)
  simp [h1, h2, h3, h4]

theorem isDigit_ne_minus {c : Char} (h : c.isDigit = true) : ¬(c = '-') := by
  intro hc; subst hc; exact absurd h (by decide)

theorem isDigit_ne_plus {c : Char} (h : c.isDigit = true) : ¬(c = '+') := by
  intro hc; subst hc; exact absurd h (by decide)

theorem jsParseInt_digitSeg (x : String) (h : digitSeg x = true) :
    jsParseInt x = some ((digitsToNat x.data : Nat) : Int) := by
  unfold digitSeg at h
  rw [Bool.and_eq_true] at h
  obtain ⟨hne, hall⟩ := h
  cases hx : x.data with
  | nil => rw [hx] at hne; simp at hne
  | cons c cs =>
    rw [hx] at hall
    rw [List.all_eq_true] at hall
    have hcd : c.isDigit = true := hall c (List.mem_cons_self c cs)
    have hdw : x.data.dropWhile isJsSpace = c :: cs := by
      rw [hx, List.dropWhile_cons, isDigit_not_space hcd]
      simp
    unfold jsParseInt
    rw [hdw]
    show (if c = '-' then (leadingInt cs).map (fun n => -n)
      else if c = '+' then leadingInt cs else leadingInt (c :: cs)) = _
    rw [if_neg (isDigit_ne_minus hcd), if_neg (isDigit_ne_plus hcd)]
    unfold leadingInt
    rw [takeWhile_all Char.isDigit (c :: cs) hall]
    simp

theorem digitSeg_nonneg (x : String) :
    (0 : Int) ≤ ((digitsToNat x.data : Nat) : Int) := Int.natCast_nonneg _

theorem parseNonNegParts_all (l : List String) (h : ∀ x ∈ l, digitSeg x = true) :
    parseNonNegParts l =
      Except.ok (l.map (fun x => ((digitsToNat x.data : Nat) : Int))) := by
  induction l with
  | nil => rfl
  | cons x rest ih =>
    have hx := h x (List.mem_cons_self x rest)
    simp only [parseNonNegParts, jsParseInt_digitSeg x hx]
    rw [if_neg (not_lt.mpr (digitSeg_nonneg x)),
      ih (fun u hu => h u (List.mem_cons_of_mem x hu))]
    rfl

/-! C1: the cascading increment policy of generateNextTag. -/

/-- C1: for every base string whose split-and-parseInt stage yields the
triple (a, b, c), generateNextTag with Major yields (a+1, 0, 0), with Minor
yields (a, b+1, 0), and with Patch yields (a, b, c+1), each a fresh Version
value. -/
theorem generateNextTag_cascading (s : String) (a b c : Int)
    (hne : s ≠ "") (hp : parseParts (jsSplit s '.') = Except.ok [a, b, c]) :
    generateNextTag s PartToIncrement.Major = Except.ok ⟨a + 1, 0, 0⟩ ∧
    generateNextTag s PartToIncrement.Minor = Except.ok ⟨a, b + 1, 0⟩ ∧
    generateNextTag s PartToIncrement.Patch = Except.ok ⟨a, b, c + 1⟩ := by
  refine ⟨?_, ?_, ?_⟩ <;> (unfold generateNextTag; rw [if_neg hne, hp]; rfl)

/-- C1 witness: the policy at the concrete base 1.2.3. -/
theorem generateNextTag_cascading_witness :
    generateNextTag "1.2.3" PartToIncrement.Major = Except.ok ⟨2, 0, 0⟩ ∧
    generateNextTag "1.2.3" PartToIncrement.Minor = Except.ok ⟨1, 3, 0⟩ ∧
    generateNextTag "1.2.3" PartToIncrement.Patch = Except.ok ⟨1, 2, 4⟩ :=
  generateNextTag_cascading "1.2.3" 1 2 3 (by decide) (by decide)

/-! C9: what version-string parsing accepts and rejects. -/

/-- C9 counterexample: the claim says parsing performed by generateNextTag
fails whenever a segment is negative, but generateNextTag accepts the base
"-1.0.0" (parseInt reads the sign) and succeeds. -/
theorem generateNextTag_accepts_negative :
    generateNextTag "-1.0.0" PartToIncrement.Patch =
      Except.ok ⟨-1, 0, 1⟩ := by decide

/-- C9 amended: createManualVersion succeeds exactly when the input matches
the three-digit-segment version pattern (which excludes empty, wrongly
segmented, negative and non-numeric inputs); generateNextTag succeeds
exactly when the base is non-empty and splitting on dots yields exactly
three segments each with a parseInt value, so segments that are negative or
carry trailing non-digits are accepted there. -/
theorem version_parsing_amended (s : String) (p : PartToIncrement) :
    ((createManualVersion s).isOk = true ↔ versionPatternTest s = true) ∧
    ((generateNextTag s p).isOk = true ↔
      (s ≠ "" ∧ ∃ a b c : Int, parseParts (jsSplit s '.') = Except.ok [a, b, c])) := by
  constructor
  · constructor
    · intro h
      unfold createManualVersion at h
      by_cases hs : s = ""
      · rw [if_pos hs] at h; simp [Except.isOk, Except.toBool] at h
      rw [if_neg hs] at h
      by_cases hv : versionPatternTest s = true
      · exact hv
      · rw [if_pos (by simp [hv])] at h
        simp [Except.isOk, Except.toBool] at h
    · intro h
      have hs : s ≠ "" := by
        intro hs
        rw [hs] at h
        exact absurd h (by decide)
      unfold createManualVersion
      rw [if_neg hs, if_neg (by simp [h])]
      unfold versionPatternTest at h
      cases hsp : jsSplit s '.' with
      | nil => rw [hsp] at h; simp at h
      | cons x rest =>
        rw [hsp] at h
        match rest with
        | [] => simp at h
        | [y] => simp at h
        | y :: z :: w :: more => simp at h
        | [y, z] =>
          rw [Bool.and_eq_true, Bool.and_eq_true] at h
          obtain ⟨⟨hx, hy⟩, hz⟩ := h
          rw [parseNonNegParts_all [x, y, z] (by
            intro u hu
            simp only [List.mem_cons, List.not_mem_nil, or_false] at hu
            rcases hu with rfl | rfl | rfl
            · exact hx
            · exact hy
            · exact hz)]
          rfl
  · constructor
    · intro h
      unfold generateNextTag at h
      by_cases hs : s = ""
      · rw [if_pos hs] at h; simp [Except.isOk, Except.toBool] at h
      rw [if_neg hs] at h
      refine ⟨hs, ?_⟩
      cases hp : parseParts (jsSplit s '.') with
      | error e => rw [hp] at h; simp [Except.isOk, Except.toBool] at h
      | ok parts =>
        rw [hp] at h
        match parts with
        | [] => simp [Except.isOk, Except.toBool] at h
        | [a] => simp [Except.isOk, Except.toBool] at h
        | [a, b] => simp [Except.isOk, Except.toBool] at h
        | a :: b :: c :: d :: more => simp [Except.isOk, Except.toBool] at h
        | [a, b, c] => exact ⟨a, b, c, rfl⟩
    · rintro ⟨hs, a, b, c, hp⟩
      unfold generateNextTag
      rw [if_neg hs, hp]
      rfl

/-! C2: the classification of checkDuplicateTag. -/

/-- C2: checkDuplicateTag reports exact_match exactly when some existing tag
name equals the candidate; version_conflict exactly when no name matches
exactly but some name matches after stripping a leading v from both; none
otherwise; and the exists flag holds exactly when the conflict type is not
none. -/
theorem checkDuplicateTag_classification (tags : List RemoteTag) (tagName : String) :
    ((checkDuplicateTag tags tagName).conflictType = ConflictType.exact_match ↔
      ∃ t ∈ tags, t.name = tagName) ∧
    ((checkDuplicateTag tags tagName).conflictType = ConflictType.version_conflict ↔
      ((¬∃ t ∈ tags, t.name = tagName) ∧
        ∃ t ∈ tags, stripLeadingV t.name = stripLeadingV tagName)) ∧
    ((checkDuplicateTag tags tagName).conflictType = ConflictType.none ↔
      ((¬∃ t ∈ tags, t.name = tagName) ∧
        ¬∃ t ∈ tags, stripLeadingV t.name = stripLeadingV tagName)) ∧
    ((checkDuplicateTag tags tagName).tagExists = true ↔
      (checkDuplicateTag tags tagName).conflictType ≠ ConflictType.none) := by
  unfold checkDuplicateTag
  cases h1 : tags.find? (fun tag => tag.name = tagName) with
  | some t =>
    have hmem := List.mem_of_find?_eq_some h1
    have hpred : t.name = tagName := by simpa using List.find?_some h1
    refine ⟨iff_of_true rfl ⟨t, hmem, hpred⟩,
      iff_of_false (by simp) ?_, iff_of_false (by simp) ?_,
      iff_of_true rfl (by simp)⟩
    · rintro ⟨hn, _⟩; exact hn ⟨t, hmem, hpred⟩
    · rintro ⟨hn, _⟩; exact hn ⟨t, hmem, hpred⟩
  | none =>
    have hno : ¬∃ t ∈ tags, t.name = tagName := by
      rintro ⟨t, hmem, hname⟩
      have := List.find?_eq_none.mp h1 t hmem
      simp [hname] at this
    cases h2 : tags.find? (fun tag => stripLeadingV tag.name = stripLeadingV tagName) with
    | some t =>
      have hmem := List.mem_of_find?_eq_some h2
      have hpred : stripLeadingV t.name = stripLeadingV tagName := by
        simpa using List.find?_some h2
      refine ⟨iff_of_false (by simp) ?_,
        iff_of_true rfl ⟨hno, t, hmem, hpred⟩,
        iff_of_false (by simp) ?_,
        iff_of_true rfl (by simp)⟩
      · intro he; exact hno he
      · rintro ⟨_, hn⟩; exact hn ⟨t, hmem, hpred⟩
    | none =>
      have hno2 : ¬∃ t ∈ tags, stripLeadingV t.name = stripLeadingV tagName := by
        rintro ⟨t, hmem, hname⟩
        have := List.find?_eq_none.mp h2 t hmem
        simp [hname] at this
      refine ⟨iff_of_false (by simp) ?_,
        iff_of_false (by simp) ?_,
        iff_of_true rfl ⟨hno, hno2⟩,
        iff_of_false (by simp) (by simp)⟩
      · intro he; exact hno he
      · rintro ⟨_, hn⟩; exact hno2 hn

/-- A conflict check that reports no existing tag reports conflict type
none (the only constructor of checkDuplicateTag with a false flag). -/
theorem conflictType_none_of_not_exists (tags : List RemoteTag) (name : String)
    (h : (checkDuplicateTag tags name).tagExists = false) :
    (checkDuplicateTag tags name).conflictType = ConflictType.none := by
  unfold checkDuplicateTag at h ⊢
  cases h1 : tags.find? (fun tag => tag.name = name) with
  | some t => rw [h1] at h; simp at h
  | none =>
    cases h2 : tags.find? (fun tag => stripLeadingV tag.name = stripLeadingV name) with
    | some t => rw [h1, h2] at h; simp at h
    | none => rfl

/-! C3: the forward conflict search. -/

theorem stepIter_shift (part : PartToIncrement) (cur : Version) :
    ∀ k, stepIter part (findStep part cur) k = stepIter part cur (k + 1) := by
  intro k
  induction k with
  | zero => rfl
  | succ m ih => simp only [stepIter, ih]

theorem findLoop_ok (part : PartToIncrement) (tags : List RemoteTag) :
    ∀ (n : Nat) (cur v : Version), findLoop part tags cur n = Except.ok v →
      (checkDuplicateTag tags v.render).tagExists = false ∧
      ∃ k, 1 ≤ k ∧ k ≤ n ∧ v = stepIter part cur k ∧
        ∀ j, 1 ≤ j → j < k →
          (checkDuplicateTag tags (stepIter part cur j).render).tagExists = true := by
  intro n
  induction n with
  | zero =>
    intro cur v h
    exact absurd h (by simp [findLoop])
  | succ m ih =>
    intro cur v h
    unfold findLoop at h
    by_cases hc : (checkDuplicateTag tags (findStep part cur).render).tagExists = true
    · rw [if_neg (by simp [hc])] at h
      obtain ⟨hnc, k, hk1, hkm, hkv, hprev⟩ := ih (findStep part cur) v h
      rw [stepIter_shift part cur k] at hkv
      refine ⟨hnc, k + 1, by omega, by omega, hkv, ?_⟩
      intro j hj1 hjk
      rcases Nat.eq_or_lt_of_le hj1 with hj | hj
    -- j = 1 or j ≥ 2
      · rw [← hj]
        exact hc
      · have hj2 : 1 ≤ j - 1 := by omega
        have hjk2 : j - 1 < k := by omega
        have := hprev (j - 1) hj2 hjk2
        rw [stepIter_shift part cur (j - 1)] at this
        have hje : j - 1 + 1 = j := by omega
        rw [hje] at this
        exact this
    · rw [if_pos (by simp [hc])] at h
      cases h
      refine ⟨by simpa using hc, 1, le_refl 1, by omega, rfl, ?_⟩
      intro j hj1 hjk
      omega

theorem findLoop_error_iff (part : PartToIncrement) (tags : List RemoteTag) :
    ∀ (n : Nat) (cur : Version),
      (∃ e, findLoop part tags cur n = Except.error e) ↔
      ∀ k, 1 ≤ k → k ≤ n →
        (checkDuplicateTag tags (stepIter part cur k).render).tagExists = true := by
  intro n
  induction n with
  | zero =>
    intro cur
    constructor
    · intro _ k hk1 hk0
      omega
    · intro _
      exact ⟨_, rfl⟩
  | succ m ih =>
    intro cur
    unfold findLoop
    by_cases hc : (checkDuplicateTag tags (findStep part cur).render).tagExists = true
    · rw [if_neg (by simp [hc])]
      constructor
      · intro he k hk1 hkm
        rcases Nat.eq_or_lt_of_le hk1 with hk | hk
        · rw [← hk]; exact hc
        · have := (ih (findStep part cur)).mp he (k - 1) (by omega) (by omega)
          rw [stepIter_shift part cur (k - 1)] at this
          have hke : k - 1 + 1 = k := by omega
          rw [hke] at this
          exact this
      · intro hall
        refine (ih (findStep part cur)).mpr ?_
        intro k hk1 hkm
        rw [stepIter_shift part cur k]
        exact hall (k + 1) (by omega) (by omega)
    · rw [if_pos (by simp [hc])]
      constructor
      · rintro ⟨e, he⟩
        cases he
      · intro hall
        exact absurd (hall 1 (le_refl 1) (by omega)) (by simpa using hc)

/-- C3: with the default bound 10, a successful forward search returns the
first candidate, among the iterates of the same increment step the
Next-Tag Generator applies, that has no exact or version conflict with the
tag set; every earlier candidate conflicts; and the search fails with a
ValidationError exactly when all ten candidates conflict. -/
theorem findNextAvailableVersion_forward_search (base : Version)
    (part : PartToIncrement) (tags : List RemoteTag) :
    (∀ v, findNextAvailableVersion base part tags 10 = Except.ok v →
      (checkDuplicateTag tags v.render).tagExists = false ∧
      (checkDuplicateTag tags v.render).conflictType = ConflictType.none ∧
      ∃ k, 1 ≤ k ∧ k ≤ 10 ∧ v = stepIter part base k ∧
        ∀ j, 1 ≤ j → j < k →
          (checkDuplicateTag tags (stepIter part base j).render).tagExists = true) ∧
    ((∃ e, findNextAvailableVersion base part tags 10 = Except.error e) ↔
      ∀ k, 1 ≤ k → k ≤ 10 →
        (checkDuplicateTag tags (stepIter part base k).render).tagExists = true) ∧
    (∀ (q : PartToIncrement) (w : Version), findStep q w = applyIncrement q w) := by
  refine ⟨?_, ?_, ?_⟩
  · intro v h
    obtain ⟨hnc, hk⟩ := findLoop_ok part tags 10 base v h
    exact ⟨hnc, conflictType_none_of_not_exists tags v.render hnc, hk⟩
  · exact findLoop_error_iff part tags 10 base
  · intro q w
    cases q <;> rfl

/-- C3 witness: a concrete conflicted start where the second candidate is
free. -/
theorem findNextAvailableVersion_forward_search_witness :
    (checkDuplicateTag [⟨"1.0.1", none⟩] (Version.render ⟨1, 0, 2⟩)).tagExists = false ∧
    (∃ k, 1 ≤ k ∧ k ≤ 10 ∧ (⟨1, 0, 2⟩ : Version) = stepIter PartToIncrement.Patch ⟨1, 0, 0⟩ k) := by
  have h := (findNextAvailableVersion_forward_search ⟨1, 0, 0⟩ PartToIncrement.Patch
    [⟨"1.0.1", none⟩]).1 ⟨1, 0, 2⟩ (by decide)
  exact ⟨h.1, h.2.2.elim (fun k hk => ⟨k, hk.1, hk.2.1, hk.2.2.1⟩)⟩

/-! C4: determineLastTag. -/

theorem lexCompare_le_zero_iff (x y : Int × Int × Int) :
    lexCompare x y ≤ 0 ↔ lexLe x y := by
  rcases x with ⟨x1, x2, x3⟩
  rcases y with ⟨y1, y2, y3⟩
  unfold lexCompare lexLe
  dsimp only
  split_ifs <;> omega

theorem lexLe_refl (x : Int × Int × Int) : lexLe x x := by
  rcases x with ⟨x1, x2, x3⟩
  unfold lexLe
  dsimp only
  omega

theorem lexLe_trans {x y z : Int × Int × Int} (h1 : lexLe x y) (h2 : lexLe y z) :
    lexLe x z := by
  rcases x with ⟨x1, x2, x3⟩
  rcases y with ⟨y1, y2, y3⟩
  rcases z with ⟨z1, z2, z3⟩
  unfold lexLe at h1 h2 ⊢
  dsimp only at h1 h2 ⊢
  omega

theorem lexLe_total (x y : Int × Int × Int) : lexLe x y ∨ lexLe y x := by
  rcases x with ⟨x1, x2, x3⟩
  rcases y with ⟨y1, y2, y3⟩
  unfold lexLe
  dsimp only
  omega

theorem tagLe_iff (a b : Tag) :
    tagLe a b = true ↔ lexLe (versionTriple a.version) (versionTriple b.version) := by
  unfold tagLe compareVersions
  rw [decide_eq_true_eq]
  exact lexCompare_le_zero_iff _ _

theorem getLast?_mem_own {α : Type} :
    ∀ (l : List α) (t : α), l.getLast? = some t → t ∈ l := by
  intro l
  induction l with
  | nil => intro t h; cases h
  | cons a rest ih =>
    intro t h
    cases rest with
    | nil =>
      cases h
      exact List.mem_cons_self a []
    | cons b m =>
      rw [List.getLast?_cons_cons] at h
      exact List.mem_cons_of_mem a (ih t h)

theorem getLast?_isSome_of_ne_nil {α : Type} :
    ∀ (l : List α), l ≠ [] → ∃ t, l.getLast? = some t := by
  intro l
  induction l with
  | nil => intro h; exact absurd rfl h
  | cons a rest ih =>
    intro _
    cases rest with
    | nil => exact ⟨a, rfl⟩
    | cons b m =>
      obtain ⟨t, ht⟩ := ih (by simp)
      exact ⟨t, by rw [List.getLast?_cons_cons]; exact ht⟩

theorem sorted_last_max :
    ∀ (l : List Tag), l.Sorted tagOrder → ∀ t, l.getLast? = some t →
      ∀ x ∈ l, x = t ∨ tagOrder x t := by
  intro l
  induction l with
  | nil => intro _ t h; cases h
  | cons a rest ih =>
    intro hs t ht x hx
    obtain ⟨hrel, hrest⟩ := List.sorted_cons.mp hs
    cases rest with
    | nil =>
      cases ht
      rcases List.mem_singleton.mp hx with rfl
      exact Or.inl rfl
    | cons b m =>
      rw [List.getLast?_cons_cons] at ht
      rcases List.mem_cons.mp hx with rfl | hx2
      · exact Or.inr (hrel t (getLast?_mem_own (b :: m) t ht))
      · exact ih hrest t ht x hx2

theorem buildTag_ok_inv (r : TagRecord) (t : Tag) (h : buildTag r = Except.ok t) :
    ∃ n, r.name = some n ∧ n ≠ "" ∧ Tag.create n = Except.ok t := by
  unfold buildTag at h
  cases hr : r.name with
  | none => rw [hr] at h; cases h
  | some n =>
    rw [hr] at h
    dsimp only at h
    by_cases hn : n = ""
    · rw [if_pos hn] at h; cases h
    · rw [if_neg hn] at h
      cases hc : Tag.create n with
      | error e => rw [hc] at h; cases h
      | ok u =>
        rw [hc] at h
        cases h
        exact ⟨n, rfl, hn, hc⟩

theorem buildTag_ok_of (n : String) (t : Tag) (hn : n ≠ "")
    (hc : Tag.create n = Except.ok t) :
    buildTag ⟨some n⟩ = Except.ok t := by
  unfold buildTag
  dsimp only
  rw [if_neg hn, hc]

theorem buildTags_ok_all :
    ∀ (tags : List TagRecord) (l : List Tag), buildTags tags = Except.ok l →
      (∀ r ∈ tags, ∃ n t, r.name = some n ∧ n ≠ "" ∧ Tag.create n = Except.ok t ∧ t ∈ l) ∧
      l.length = tags.length ∧
      (∀ t ∈ l, ∃ r ∈ tags, ∃ n, r.name = some n ∧ Tag.create n = Except.ok t) := by
  intro tags
  induction tags with
  | nil =>
    intro l h
    cases h
    exact ⟨by simp, rfl, by simp⟩
  | cons r rest ih =>
    intro l h
    unfold buildTags at h
    cases hb : buildTag r with
    | error e => rw [hb] at h; cases h
    | ok t =>
      rw [hb] at h
      cases hr : buildTags rest with
      | error e => rw [hr] at h; cases h
      | ok ts =>
        rw [hr] at h
        cases h
        obtain ⟨hall, hlen, hmem⟩ := ih ts hr
        obtain ⟨n, hn, hne, hc⟩ := buildTag_ok_inv r t hb
        refine ⟨?_, by simp [hlen], ?_⟩
        · intro r' hr'
          rcases List.mem_cons.mp hr' with rfl | hr2
          · exact ⟨n, t, hn, hne, hc, List.mem_cons_self t ts⟩
          · obtain ⟨n', t', h1, h2, h3, h4⟩ := hall r' hr2
            exact ⟨n', t', h1, h2, h3, List.mem_cons_of_mem t h4⟩
        · intro u hu
          rcases List.mem_cons.mp hu with rfl | hu2
          · exact ⟨r, List.mem_cons_self r rest, n, hn, hc⟩
          · obtain ⟨r', h1, n', h2, h3⟩ := hmem u hu2
            exact ⟨r', List.mem_cons_of_mem r h1, n', h2, h3⟩

theorem buildTags_ok_of_all :
    ∀ (tags : List TagRecord),
      (∀ r ∈ tags, ∃ n t, r.name = some n ∧ n ≠ "" ∧ Tag.create n = Except.ok t) →
      ∃ l, buildTags tags = Except.ok l := by
  intro tags
  induction tags with
  | nil => intro _; exact ⟨[], rfl⟩
  | cons r rest ih =>
    intro h
    obtain ⟨n, t, hn, hne, hc⟩ := h r (List.mem_cons_self r rest)
    obtain ⟨l, hl⟩ := ih (fun r' hr' => h r' (List.mem_cons_of_mem r hr'))
    refine ⟨t :: l, ?_⟩
    unfold buildTags
    have hb : buildTag r = Except.ok t := by
      have : r = ⟨some n⟩ := by cases r; simp_all
      rw [this]
      exact buildTag_ok_of n t hne hc
    rw [hb, hl]

theorem determineLastTag_ok_inv (tags : List TagRecord) (t : Tag)
    (h : determineLastTag tags = Except.ok t) :
    tags ≠ [] ∧ ∃ l, buildTags tags = Except.ok l ∧
      (l.insertionSort tagOrder).getLast? = some t := by
  unfold determineLastTag at h
  by_cases he : tags.isEmpty
  · rw [if_pos he] at h; cases h
  · rw [if_neg he] at h
    refine ⟨by simpa [List.isEmpty_iff] using he, ?_⟩
    cases hb : buildTags tags with
    | error e => rw [hb] at h; cases h
    | ok l =>
      rw [hb] at h
      dsimp only at h
      by_cases hle : l.isEmpty
      · rw [if_pos hle] at h; cases h
      · rw [if_neg hle] at h
        cases hlast : (l.insertionSort tagOrder).getLast? with
        | none => rw [hlast] at h; cases h
        | some u =>
          rw [hlast] at h
          cases h
          exact ⟨l, rfl, hlast⟩

/-- C4: determineLastTag fails on the empty list, on any element without a
(truthy) name, and on any element whose name fails Tag validation; on a
non-empty list of well-formed records it returns a tag built from one of the
records whose version triple is greatest in the lexicographic
(major, minor, patch) order among all the built tags. -/
theorem determineLastTag_spec (tags : List TagRecord) :
    (tags = [] → ∃ e, determineLastTag tags = Except.error e) ∧
    ((∃ r ∈ tags, r.name = none ∨ r.name = some "") →
      ∃ e, determineLastTag tags = Except.error e) ∧
    ((∃ r ∈ tags, ∃ n, r.name = some n ∧ (Tag.create n).isOk = false) →
      ∃ e, determineLastTag tags = Except.error e) ∧
    ((tags ≠ [] ∧ ∀ r ∈ tags, ∃ n t, r.name = some n ∧ n ≠ "" ∧ Tag.create n = Except.ok t) →
      ∃ t, determineLastTag tags = Except.ok t ∧
        (∃ r ∈ tags, ∃ n, r.name = some n ∧ Tag.create n = Except.ok t) ∧
        ∀ r ∈ tags, ∀ n u, r.name = some n → Tag.create n = Except.ok u →
          lexLe (versionTriple u.version) (versionTriple t.version)) := by
  haveI : IsTotal Tag tagOrder := ⟨fun a b => by
    show tagLe a b = true ∨ tagLe b a = true
    rw [tagLe_iff, tagLe_iff]
    exact lexLe_total _ _⟩
  haveI : IsTrans Tag tagOrder := ⟨fun a b c hab hbc => by
    have hab2 : tagLe a b = true := hab
    have hbc2 : tagLe b c = true := hbc
    show tagLe a c = true
    rw [tagLe_iff] at hab2 hbc2 ⊢
    exact lexLe_trans hab2 hbc2⟩
  refine ⟨?_, ?_, ?_, ?_⟩
  · rintro rfl
    exact ⟨⟨"No tags found in repository"⟩, rfl⟩
  · intro hbad
    cases hd : determineLastTag tags with
    | error e => exact ⟨e, rfl⟩
    | ok t =>
      exfalso
      obtain ⟨_, l, hbl, _⟩ := determineLastTag_ok_inv tags t hd
      obtain ⟨hall, _, _⟩ := buildTags_ok_all tags l hbl
      obtain ⟨r, hr, hname⟩ := hbad
      obtain ⟨n, t', h1, h2, _, _⟩ := hall r hr
      rcases hname with hnone | hempty
      · rw [hnone] at h1; cases h1
      · rw [hempty] at h1
        cases h1
        exact h2 rfl
  · intro hbad
    cases hd : determineLastTag tags with
    | error e => exact ⟨e, rfl⟩
    | ok t =>
      exfalso
      obtain ⟨_, l, hbl, _⟩ := determineLastTag_ok_inv tags t hd
      obtain ⟨hall, _, _⟩ := buildTags_ok_all tags l hbl
      obtain ⟨r, hr, n, hname, hfail⟩ := hbad
      obtain ⟨n', t', h1, _, h3, _⟩ := hall r hr
      rw [hname] at h1
      cases h1
      rw [h3] at hfail
      exact absurd hfail (by simp [Except.isOk, Except.toBool])
  · rintro ⟨hne, hall⟩
    obtain ⟨l, hbl⟩ := buildTags_ok_of_all tags hall
    obtain ⟨hprops, hlen, hmem⟩ := buildTags_ok_all tags l hbl
    have hlne : l ≠ [] := by
      intro hl
      rw [hl] at hlen
      exact hne (List.eq_nil_of_length_eq_zero hlen.symm)
    have hsne : l.insertionSort tagOrder ≠ [] := by
      intro hs
      have := List.length_insertionSort tagOrder l
      rw [hs] at this
      exact hlne (List.eq_nil_of_length_eq_zero this.symm)
    obtain ⟨t, hlast⟩ := getLast?_isSome_of_ne_nil _ hsne
    have hdet : determineLastTag tags = Except.ok t := by
      unfold determineLastTag
      rw [if_neg (by simpa [List.isEmpty_iff] using hne), hbl]
      dsimp only
      rw [if_neg (by simpa [List.isEmpty_iff] using hlne), hlast]
    have htmem : t ∈ l :=
      (List.mem_insertionSort tagOrder).mp (getLast?_mem_own _ t hlast)
    refine ⟨t, hdet, hmem t htmem, ?_⟩
    intro r hr n u hn hcu
    obtain ⟨n', t', h1, _, h3, h4⟩ := hprops r hr
    rw [hn] at h1
    cases h1
    rw [hcu] at h3
    cases h3
    have humem : u ∈ l.insertionSort tagOrder := (List.mem_insertionSort tagOrder).mpr h4
    have hsorted := List.sorted_insertionSort tagOrder l
    rcases sorted_last_max _ hsorted t hlast u humem with rfl | hord
    · exact lexLe_refl _
    · exact (tagLe_iff u t).mp hord

/-- C4 witness: the two-tag example of the specification. -/
theorem determineLastTag_spec_witness :
    ∃ t, determineLastTag [⟨some "v1.0.0"⟩, ⟨some "v1.1.0"⟩] = Except.ok t ∧
      (∃ r ∈ [(⟨some "v1.0.0"⟩ : TagRecord), ⟨some "v1.1.0"⟩], ∃ n,
        r.name = some n ∧ Tag.create n = Except.ok t) ∧
      ∀ r ∈ [(⟨some "v1.0.0"⟩ : TagRecord), ⟨some "v1.1.0"⟩], ∀ n u,
        r.name = some n → Tag.create n = Except.ok u →
          lexLe (versionTriple u.version) (versionTriple t.version) := by
  refine (determineLastTag_spec [⟨some "v1.0.0"⟩, ⟨some "v1.1.0"⟩]).2.2.2 ⟨by simp, ?_⟩
  intro r hr
  rcases List.mem_cons.mp hr with rfl | hr2
  · exact ⟨"v1.0.0", ⟨"v1.0.0", "1.0.0"⟩, rfl, by decide, by decide⟩
  rcases List.mem_cons.mp hr2 with rfl | hr3
  · exact ⟨"v1.1.0", ⟨"v1.1.0", "1.1.0"⟩, rfl, by decide, by decide⟩
  · cases hr3

/-! C5: the retry executor error policy. -/

theorem withRetryGo_all_retryable {α : Type} (op : Operation α) (m : Nat) :
    ∀ (fuel attempt : Nat), attempt + fuel = m + 1 → 1 ≤ attempt →
      (∀ n, attempt ≤ n → n ≤ m → ∃ e, op n = Except.error e ∧ isRetryableError e = true) →
      (withRetryGo op m fuel attempt).success = false ∧
      (withRetryGo op m fuel attempt).attempts = m := by
  intro fuel
  induction fuel with
  | zero => intro attempt _ _ _; exact ⟨rfl, rfl⟩
  | succ k ih =>
    intro attempt hsum h1 hop
    have hatt : attempt ≤ m := by omega
    obtain ⟨e, he, hret⟩ := hop attempt (le_refl attempt) hatt
    unfold withRetryGo
    rw [he]
    dsimp only
    by_cases hm : attempt = m
    · rw [if_pos (by simp [hm])]
      exact ⟨rfl, hm⟩
    · rw [if_neg (by simp [hm, hret])]
      exact ih (attempt + 1) (by omega) (by omega)
        (fun n hn1 hn2 => hop n (by omega) hn2)

theorem withGitHubRetryGo_all_retryable {α : Type} (op : Operation α) (m : Nat) (now : Int) :
    ∀ (fuel attempt : Nat), attempt + fuel = m + 1 → 1 ≤ attempt →
      (∀ n, attempt ≤ n → n ≤ m →
        ∃ e, op n = Except.error e ∧ isRetryableError e = true ∧ e.headers = none) →
      (withGitHubRetryGo op m now fuel attempt).success = false ∧
      (withGitHubRetryGo op m now fuel attempt).attempts = m := by
  intro fuel
  induction fuel with
  | zero => intro attempt _ _ _; exact ⟨rfl, rfl⟩
  | succ k ih =>
    intro attempt hsum h1 hop
    have hatt : attempt ≤ m := by omega
    obtain ⟨e, he, hret, hh⟩ := hop attempt (le_refl attempt) hatt
    unfold withGitHubRetryGo
    rw [he]
    dsimp only
    rw [hh]
    dsimp only
    rw [if_neg (by simp)]
    by_cases hm : attempt = m
    · rw [if_pos (by simp [hm])]
      exact ⟨rfl, hm⟩
    · rw [if_neg (by simp [hm, hret])]
      exact ih (attempt + 1) (by omega) (by omega)
        (fun n hn1 hn2 => hop n (by omega) hn2)

/-- C5: both retry executors return a RetryResult value (they are total
functions into RetryResult); a first-attempt failure that is not retryable
(and, for the GitHub variant, carries no rate-limit headers) aborts with
exactly one attempt consumed; an operation that fails retryably on every
attempt exhausts the budget and reports success false with attempts equal
to maxAttempts. -/
theorem retry_executor_error_policy (α : Type) (config : RetryConfig)
    (op : Operation α) (now : Int) :
    (∀ e, 1 ≤ config.maxAttempts → op 1 = Except.error e → isRetryableError e = false →
      withRetry op config = ⟨false, none, some e, 1⟩) ∧
    ((1 ≤ config.maxAttempts →
      (∀ n, 1 ≤ n → n ≤ config.maxAttempts →
        ∃ e, op n = Except.error e ∧ isRetryableError e = true) →
      (withRetry op config).success = false ∧
      (withRetry op config).attempts = config.maxAttempts)) ∧
    (∀ e, 1 ≤ config.maxAttempts → op 1 = Except.error e → isRetryableError e = false →
      e.headers = none →
      withGitHubRetry op config now = ⟨false, none, some e, 1⟩) ∧
    ((1 ≤ config.maxAttempts →
      (∀ n, 1 ≤ n → n ≤ config.maxAttempts →
        ∃ e, op n = Except.error e ∧ isRetryableError e = true ∧ e.headers = none) →
      (withGitHubRetry op config now).success = false ∧
      (withGitHubRetry op config now).attempts = config.maxAttempts)) := by
  refine ⟨?_, ?_, ?_, ?_⟩
  · intro e hm hop hret
    obtain ⟨k, hk⟩ : ∃ k, config.maxAttempts = k + 1 := ⟨config.maxAttempts - 1, by omega⟩
    unfold withRetry
    rw [hk]
    unfold withRetryGo
    rw [hop]
    dsimp only
    rw [if_pos (by simp [hret])]
  · intro hm hop
    exact withRetryGo_all_retryable op config.maxAttempts config.maxAttempts 1
      (by omega) (le_refl 1) (fun n hn1 hn2 => hop n hn1 hn2)
  · intro e hm hop hret hh
    obtain ⟨k, hk⟩ : ∃ k, config.maxAttempts = k + 1 := ⟨config.maxAttempts - 1, by omega⟩
    unfold withGitHubRetry
    rw [hk]
    unfold withGitHubRetryGo
    rw [hop]
    dsimp only
    rw [hh]
    dsimp only
    rw [if_neg (by simp)]
    rw [if_pos (by simp [hret])]
  · intro hm hop
    exact withGitHubRetryGo_all_retryable op config.maxAttempts now config.maxAttempts 1
      (by omega) (le_refl 1) (fun n hn1 hn2 => hop n hn1 hn2)

/-- C5 witness: a non-retryable failure aborts at attempt 1, and an
always-retryable failure exhausts the default budget of 3. -/
theorem retry_executor_error_policy_witness :
    withRetry (failOp nonRetryableErr) DEFAULT_RETRY_CONFIG =
      ⟨false, none, some nonRetryableErr, 1⟩ ∧
    (withRetry (failOp retryableErr) DEFAULT_RETRY_CONFIG).success = false ∧
    (withRetry (failOp retryableErr) DEFAULT_RETRY_CONFIG).attempts = 3 ∧
    withGitHubRetry (failOp nonRetryableErr) DEFAULT_RETRY_CONFIG 0 =
      ⟨false, none, some nonRetryableErr, 1⟩ := by
  have h1 := (retry_executor_error_policy Unit DEFAULT_RETRY_CONFIG
    (failOp nonRetryableErr) 0).1 nonRetryableErr (by decide) rfl (by decide)
  have h2 := (retry_executor_error_policy Unit DEFAULT_RETRY_CONFIG
    (failOp retryableErr) 0).2.1 (by decide)
    (fun n _ _ => ⟨retryableErr, rfl, by decide⟩)
  have h3 := (retry_executor_error_policy Unit DEFAULT_RETRY_CONFIG
    (failOp nonRetryableErr) 0).2.2.1 nonRetryableErr (by decide) rfl (by decide) rfl
  exact ⟨h1, h2.1, h2.2, h3⟩

/-! C6: the backoff delay and its jitter. -/

/-- C6: at attempt 1 with the default configuration (base delay 1000ms,
jitter on), the un-jittered delay is min(1000, 30000) = 1000, but across the
whole range of the random draw the jittered delay only spans 875..1125 —
a perturbation of at most ±12.5% of the delay, not the ±25% the claim (and
the comment in the code) states, under which the extreme draws would give
750 and 1250. -/
theorem calculateDelay_jitter_range :
    calculateDelay 1 DEFAULT_RETRY_CONFIG 1 = 1125 ∧
    calculateDelay 1 DEFAULT_RETRY_CONFIG 0 = 875 ∧
    calculateDelay 1 DEFAULT_RETRY_CONFIG (1 / 2) = 1000 ∧
    calculateDelay 1 { DEFAULT_RETRY_CONFIG with jitter := false } 1 = 1000 ∧
    calculateDelay 1 DEFAULT_RETRY_CONFIG 1 ≠ 1250 := by
  refine ⟨?_, ?_, ?_, ?_, ?_⟩ <;>
    (simp only [calculateDelay, DEFAULT_RETRY_CONFIG]; norm_num)

/-! C7: which comment directive a run applies. -/

/-- C7 counterexample: with the fetched comments "/tag-bot skip" then
"/tag-bot major", the last qualifying comment parses to an Increment Major
directive, yet the run applies Skip — an earlier Skip (and likewise an
earlier ManualVersion) is not overwritten by a later Increment, so the
claim that the last qualifying comment always wins fails. -/
theorem last_comment_wins_counterexample :
    commentEffect ⟨some "/tag-bot major"⟩ =
      CommentEffect.increment (Sum.inl PartToIncrement.Major) ∧
    appliedDirective (scanComments [⟨some "/tag-bot skip"⟩, ⟨some "/tag-bot major"⟩]) =
      Directive.skip ∧
    appliedDirective (scanComments [⟨some "/tag-bot v2.5.0"⟩, ⟨some "/tag-bot major"⟩]) =
      Directive.manual "2.5.0" := by decide

theorem getLast?_cons_eq {α : Type} (a : α) (l : List α) :
    (a :: l).getLast? = some ((l.getLast?).getD a) := by
  cases l with
  | nil => rfl
  | cons b m =>
    rw [List.getLast?_cons_cons]
    obtain ⟨t, ht⟩ := getLast?_isSome_of_ne_nil (b :: m) (by simp)
    rw [ht]
    rfl

theorem scan_foldl_char :
    ∀ (cs : List Comment) (st : ScanState),
      ((cs.foldl processComment st).shouldSkip =
        (st.shouldSkip || cs.any (fun c => commentEffect c = CommentEffect.skip))) ∧
      ((cs.foldl processComment st).manualVersion =
        ((cs.filterMap effectManual).getLast?).elim st.manualVersion some) ∧
      ((cs.foldl processComment st).partToIncrement =
        ((cs.filterMap effectInc).getLast?).getD st.partToIncrement) := by
  intro cs
  induction cs with
  | nil => intro st; exact ⟨by simp, rfl, rfl⟩
  | cons c rest ih =>
    intro st
    rw [List.foldl_cons]
    obtain ⟨ih1, ih2, ih3⟩ := ih (processComment st c)
    cases he : commentEffect c with
    | noEffect =>
      refine ⟨?_, ?_, ?_⟩
      · rw [ih1]
        simp [processComment, he, effectManual, effectInc]
      · rw [ih2]
        simp [processComment, he, effectManual]
      · rw [ih3]
        simp [processComment, he, effectInc]
    | skip =>
      refine ⟨?_, ?_, ?_⟩
      · rw [ih1]
        simp [processComment, he, effectManual, effectInc]
      · rw [ih2]
        simp [processComment, he, effectManual]
      · rw [ih3]
        simp [processComment, he, effectInc]
    | manual v =>
      refine ⟨?_, ?_, ?_⟩
      · rw [ih1]
        simp [processComment, he]
      · rw [ih2]
        simp only [processComment, he, List.filterMap_cons, effectManual]
        rw [getLast?_cons_eq]
        cases hfm : ((rest.filterMap effectManual).getLast?) with
        | none => rfl
        | some w => rfl
      · rw [ih3]
        simp [processComment, he, effectInc]
    | increment p =>
      refine ⟨?_, ?_, ?_⟩
      · rw [ih1]
        simp [processComment, he]
      · rw [ih2]
        simp [processComment, he, effectManual]
      · rw [ih3]
        simp only [processComment, he, List.filterMap_cons, effectInc]
        rw [getLast?_cons_eq]
        cases hfi : ((rest.filterMap effectInc).getLast?) with
        | none => rfl
        | some w => rfl

/-- C7 amended: each directive kind is tracked separately and within a kind
the last qualifying comment wins: after the scan, the skip flag is set
exactly when some qualifying comment is a skip; the pending manual version
is the one of the last qualifying manual comment (if any); the pending
increment part is the one of the last qualifying increment comment (Minor
by default).  The directive the run applies then prefers Skip, then
ManualVersion, then Increment (the appliedDirective definition), so a later
Increment does not overwrite an earlier Skip or ManualVersion. -/
theorem comment_scan_last_per_kind (comments : List Comment) :
    ((scanComments comments).shouldSkip =
      comments.any (fun c => commentEffect c = CommentEffect.skip)) ∧
    ((scanComments comments).manualVersion =
      (comments.filterMap effectManual).getLast?) ∧
    ((scanComments comments).partToIncrement =
      ((comments.filterMap effectInc).getLast?).getD (Sum.inl PartToIncrement.Minor)) := by
  unfold scanComments
  obtain ⟨h1, h2, h3⟩ := scan_foldl_char comments initialScanState
  refine ⟨?_, ?_, ?_⟩
  · rw [h1]
    simp [initialScanState]
  · rw [h2]
    cases (comments.filterMap effectManual).getLast? with
    | none => rfl
    | some v => rfl
  · rw [h3]
    rfl

/-! C8: tag-name validation. -/

/-- C8: the invalid-character regex of validateTagName closes its character
class at the first unescaped right bracket, so a name containing a single
git-illegal character such as a tilde or an at sign passes validation (the
claim, the error message of the code and its unit tests all expect
rejection); only a class character followed by the literal text at,
left brace, right brace, right bracket is rejected; the control-character
and whitespace-only rejections do behave as claimed. -/
theorem validateTagName_regex_class_bug :
    validateTagName "tag~name" = Except.ok () ∧
    validateTagName "tag@name" = Except.ok () ∧
    validateTagName "v1.0.0" = Except.ok () ∧
    (validateTagName "a~@\x7b\x7d]b").isOk = false ∧
    (validateTagName "a\x01b").isOk = false ∧
    (validateTagName "   ").isOk = false ∧
    (validateTagName "").isOk = false := by decide

/-! C10: the default directive. -/

/-- C10: when every fetched comment either has no body, does not start with
the comment identifier, or fails to parse, the scan leaves the initial
state untouched and the run proceeds with the default Minor increment; a
failed comment fetch runs the scan on nothing and lands on the same
default. -/
theorem default_increment_minor (comments : List Comment)
    (h : ∀ c ∈ comments, ∀ b, c.body = some b →
      jsStartsWith b commentIdentifier = true → (parseCommentBody b).isOk = false) :
    appliedDirective (scanComments comments) =
      Directive.increment (Sum.inl PartToIncrement.Minor) := by
  have heff : ∀ c ∈ comments, commentEffect c = CommentEffect.noEffect := by
    intro c hc
    unfold commentEffect
    cases hb : c.body with
    | none => rfl
    | some b =>
      dsimp only
      by_cases hcond : b ≠ "" ∧ jsStartsWith b commentIdentifier = true
      · rw [if_pos hcond]
        cases hp : parseCommentBody b with
        | error e => rfl
        | ok res =>
          exfalso
          have hbad := h c hc b hb hcond.2
          rw [hp] at hbad
          exact absurd hbad (by simp [Except.isOk, Except.toBool])
      · rw [if_neg hcond]
  have hfold : ∀ (cs : List Comment) (st : ScanState),
      (∀ c ∈ cs, commentEffect c = CommentEffect.noEffect) →
      cs.foldl processComment st = st := by
    intro cs
    induction cs with
    | nil => intro st _; rfl
    | cons c rest ih =>
      intro st hall
      rw [List.foldl_cons]
      have hpc : processComment st c = st := by
        unfold processComment
        rw [hall c (List.mem_cons_self c rest)]
      rw [hpc]
      exact ih st (fun x hx => hall x (List.mem_cons_of_mem c hx))
  unfold scanComments
  rw [hfold comments initialScanState heff]
  rfl

/-- C10 witness: an absent body, a non-command comment and a malformed
command all fall through to the Minor default. -/
theorem default_increment_minor_witness :
    appliedDirective (scanComments [⟨none⟩, ⟨some "hello"⟩, ⟨some "/tag-bot bogus"⟩]) =
      Directive.increment (Sum.inl PartToIncrement.Minor) := by
  refine default_increment_minor _ ?_
  intro c hc b hb hs
  rcases List.mem_cons.mp hc with rfl | hc2
  · cases hb
  rcases List.mem_cons.mp hc2 with rfl | hc3
  · cases hb
    exact absurd hs (by decide)
  rcases List.mem_cons.mp hc3 with rfl | hc4
  · cases hb
    decide
  · cases hc4

end TagBot
